import Mathlib

/-!
Verification of the HHeuristics daily-articles worker (`src/index.ts`).

The TypeScript source is shallowly embedded: strings are Lean `String`
(a wrapper around `List Char`), most string processing is written over
`List Char`, the key-value store is an association list of string pairs,
and the stateful handlers are pure functions that take the store state
and return the new state together with the data the source returns.
JavaScript timestamps are non-negative unix milliseconds (`Nat`), which
matches every call site in the source (`new Date()` / `Date.getTime()`).
-/

namespace HH

/-- Wrap a character list back into a `String`. -/
def strOf (l : List Char) : String := String.mk l

/-- JavaScript whitespace class: the characters matched by `\s` in a
JavaScript regular expression and removed by `String.prototype.trim`
(WhiteSpace plus LineTerminator code points). -/
def isJsWs (c : Char) : Bool :=
  c = ' ' || c = '\t' || c = '\n' || c = '\r' || c = '\x0b' || c = '\x0c' ||
  c.toNat = 0xa0 || c.toNat = 0x1680 ||
  (0x2000 ≤ c.toNat && c.toNat ≤ 0x200a) ||
  c.toNat = 0x2028 || c.toNat = 0x2029 || c.toNat = 0x202f || c.toNat = 0x205f ||
  c.toNat = 0x3000 || c.toNat = 0xfeff

/-- JavaScript LineTerminator code points (where a multiline `^` can match). -/
def isLineTerm (c : Char) : Bool :=
  c = '\n' || c = '\r' || c.toNat = 0x2028 || c.toNat = 0x2029

/-- Embeds `String.prototype.trim`: strip JavaScript whitespace from both ends. -/
def jsTrim (l : List Char) : List Char :=
  ((l.dropWhile isJsWs).reverse.dropWhile isJsWs).reverse

/-- Embeds `str.split("\n")` from the source: split a character list at
every newline, keeping empty segments (so the empty string yields `[[]]`,
exactly as in JavaScript). -/
def splitNl : List Char → List (List Char)
  | [] => [[]]
  | '\n' :: rest => [] :: splitNl rest
  | c :: rest =>
    match splitNl rest with
    | g :: gs => (c :: g) :: gs
    | [] => [[c]]

/-- Boolean test that `p` is a prefix of `l` (used for the KV `list({prefix})`
filter and path matching). -/
def listStartsWith : List Char → List Char → Bool
  | [], _ => true
  | _ :: _, [] => false
  | p :: ps, c :: cs => p = c && listStartsWith ps cs

/-- Lexicographic comparison of character lists by code point, the order
underlying JavaScript string comparison (`a < b`) on the stored ISO dates. -/
def lexLe : List Char → List Char → Bool
  | [], _ => true
  | _ :: _, [] => false
  | a :: as, b :: bs => if a < b then true else if b < a then false else lexLe as bs

/-- Case-insensitive character equality, modelling the `i` regex flag
(ASCII-level canonicalization via lower-casing). -/
def ciEq (a b : Char) : Bool := a.toLower = b.toLower

/-- Case-insensitive literal match of `t` at the head of `l`; returns the
remainder after the match. -/
def matchCI : List Char → List Char → Option (List Char)
  | [], l => some l
  | _ :: _, [] => none
  | t :: ts, c :: cs => if ciEq t c then matchCI ts cs else none

/-- The verbatim `TOPIC_BUCKETS` array from the source. -/
def TOPIC_BUCKETS : List String :=
  [ "emerging technologies and their strategic implications for executives",
    "cloud infrastructure, cost optimization, and FinOps best practices",
    "financial technology disruption and embedded finance models",
    "energy transition, grid modernization, and decarbonization pathways",
    "industrial automation, robotics, and supply chain resilience",
    "AI and analytics in enterprise decision-making and business intelligence",
    "global regulatory shifts impacting technology and financial services",
    "consumer spending trends and macroeconomic signals" ]

/-- Embeds `pickTopicForToday`: `dayIndex = floor(getTime() / 86400000)`,
topic = `TOPIC_BUCKETS[dayIndex % TOPIC_BUCKETS.length]`.  The argument is
the timestamp in unix milliseconds. -/
def pickTopicForToday (timeMillis : Nat) : String :=
  let dayIndex := timeMillis / (24 * 60 * 60 * 1000)
  let idx := dayIndex % TOPIC_BUCKETS.length
  TOPIC_BUCKETS.getD idx ""

/-- The UTC day number of a unix-millisecond timestamp. -/
def dayIndex (timeMillis : Nat) : Nat := timeMillis / 86400000

/-- The key-value store state: an association list from keys to string
values, as maintained by the platform KV collaborator.  `kvPut` keeps at
most one entry per key, as the platform does. -/
abbrev Store := List (String × String)

/-- KV `get(key)` (text form): the value stored under `key`, if any. -/
def kvGet (s : Store) (k : String) : Option String :=
  (List.find? (fun e => e.1 = k) s).map (fun e => e.2)

/-- KV `put(key, value)`: overwrite any entry for `key` with `value`. -/
def kvPut (s : Store) (k v : String) : Store :=
  List.filter (fun e => ¬ e.1 = k) s ++ [(k, v)]

/-- KV `list({prefix})`: the keys of the entries whose key starts with
`p` (the downstream code sorts the fetched records itself, so the order
in which the platform enumerates keys is irrelevant to every claim). -/
def kvListPre (s : Store) (p : String) : List String :=
  (List.map (fun e : String × String => e.1) s).filter
    (fun k => listStartsWith p.data k.data)

/-- JavaScript truthiness of a nullable string (`if (x)` on
`string | null`): present and non-empty. -/
def truthy : Option String → Bool
  | some v => ¬ v = ""
  | none => false

/-- Civil UTC date (year, month, day) of a day number counted from
1970-01-01, by the standard Gregorian conversion used by
`Date.prototype.toISOString`. -/
def civilFromDays (days : Nat) : Nat × Nat × Nat :=
  let z := days + 719468
  let era := z / 146097
  let doe := z % 146097
  let yoe := (doe - doe / 1460 + doe / 36524 - doe / 146096) / 365
  let y := yoe + era * 400
  let doy := doe - (365 * yoe + yoe / 4 - yoe / 100)
  let mp := (5 * doy + 2) / 153
  let d := doy - (153 * mp + 2) / 5 + 1
  let m := if mp < 10 then mp + 3 else mp - 9
  (if m ≤ 2 then y + 1 else y, m, d)

/-- Zero-pad a number to two digits. -/
def pad2 (n : Nat) : String := if n < 10 then "0" ++ toString n else toString n

/-- Zero-pad a number to four digits (charts the `YYYY` field for the
years reachable by realistic clock values). -/
def pad4 (n : Nat) : String :=
  if n < 10 then "000" ++ toString n
  else if n < 100 then "00" ++ toString n
  else if n < 1000 then "0" ++ toString n
  else toString n

/-- Embeds `now.toISOString().slice(0, 10)`: the `YYYY-MM-DD` UTC date of
a unix-millisecond timestamp. -/
def toISODate (timeMillis : Nat) : String :=
  let ymd := civilFromDays (timeMillis / 86400000)
  pad4 ymd.1 ++ "-" ++ pad2 ymd.2.1 ++ "-" ++ pad2 ymd.2.2

/-- The article key for the day of a timestamp: `article:<YYYY-MM-DD>`. -/
def todayKey (timeMillis : Nat) : String := "article:" ++ toISODate timeMillis

/-- The stored-article record from the source (`type StoredArticle`). -/
structure StoredArticle where
  key : String
  title : String
  bodyHtml : String
  date : String
  topic : String
deriving DecidableEq, Repr

/-- Hex digit character (lower case), for JSON control-character escapes. -/
def hexDigit (n : Nat) : Char :=
  if n = 0 then '0' else if n = 1 then '1' else if n = 2 then '2'
  else if n = 3 then '3' else if n = 4 then '4' else if n = 5 then '5'
  else if n = 6 then '6' else if n = 7 then '7' else if n = 8 then '8'
  else if n = 9 then '9' else if n = 10 then 'a' else if n = 11 then 'b'
  else if n = 12 then 'c' else if n = 13 then 'd' else if n = 14 then 'e'
  else 'f'

/-- JSON escape of one character, as produced by `JSON.stringify` for the
characters that can occur in a Lean `Char`. -/
def escJsonChar (c : Char) : List Char :=
  if c = '"' then ['\\', '"']
  else if c = '\\' then ['\\', '\\']
  else if c = '\n' then ['\\', 'n']
  else if c = '\r' then ['\\', 'r']
  else if c = '\t' then ['\\', 't']
  else if c = '\x08' then ['\\', 'b']
  else if c = '\x0c' then ['\\', 'f']
  else if c.toNat < 0x20 then
    ['\\', 'u', '0', '0', hexDigit (c.toNat / 16), hexDigit (c.toNat % 16)]
  else [c]

/-- Modelled from the spec: the character stream of the platform
serialization `JSON.stringify(article)` used by the store adapter when it
"serializes and writes" a record (spec 4.1); the serializer itself is a
platform builtin, not repository code.  Written right-associated with the
closing quotes explicit, which is the same string `JSON.stringify`
produces for this flat five-field record. -/
def encodeArticleData (a : StoredArticle) : List Char :=
  "\x7b\"key\":\"".data ++ (a.key.data.flatMap escJsonChar ++ ('"' :: (",\"title\":\"".data ++ (a.title.data.flatMap escJsonChar ++ ('"' :: (",\"bodyHtml\":\"".data ++ (a.bodyHtml.data.flatMap escJsonChar ++ ('"' :: (",\"date\":\"".data ++ (a.date.data.flatMap escJsonChar ++ ('"' :: (",\"topic\":\"".data ++ (a.topic.data.flatMap escJsonChar ++ ('"' :: (('}' :: []))))))))))))))))

/-- The serialized article record, as a string. -/
def encodeArticle (a : StoredArticle) : String := strOf (encodeArticleData a)

/-- Numeric value of a hex digit character, if it is one. -/
def hexVal (c : Char) : Option Nat :=
  if c = '0' then some 0 else if c = '1' then some 1 else if c = '2' then some 2
  else if c = '3' then some 3 else if c = '4' then some 4 else if c = '5' then some 5
  else if c = '6' then some 6 else if c = '7' then some 7 else if c = '8' then some 8
  else if c = '9' then some 9 else if c = 'a' then some 10 else if c = 'b' then some 11
  else if c = 'c' then some 12 else if c = 'd' then some 13 else if c = 'e' then some 14
  else if c = 'f' then some 15 else none

/-- Read a JSON string body up to and over its closing quote, undoing the
escapes of `escJsonChar`; returns the decoded content and the remainder. -/
def readJString : List Char → Option (List Char × List Char)
  | [] => none
  | c :: rest =>
    if c = '"' then some ([], rest)
    else if c = '\\' then
      match rest with
      | [] => none
      | e :: rest2 =>
        if e = 'u' then
          match rest2 with
          | h1 :: h2 :: h3 :: h4 :: rest3 =>
            match hexVal h1, hexVal h2, hexVal h3, hexVal h4 with
            | some a, some b, some cc, some d =>
              match readJString rest3 with
              | some (s, r) => some (Char.ofNat (((a * 16 + b) * 16 + cc) * 16 + d) :: s, r)
              | none => none
            | _, _, _, _ => none
          | _ => none
        else
          match (if e = '"' then some '"' else if e = '\\' then some '\\'
                 else if e = 'n' then some '\n' else if e = 'r' then some '\r'
                 else if e = 't' then some '\t' else if e = 'b' then some '\x08'
                 else if e = 'f' then some '\x0c' else if e = '/' then some '/'
                 else none) with
          | some c2 =>
            match readJString rest2 with
            | some (s, r) => some (c2 :: s, r)
            | none => none
          | none => none
    else
      match readJString rest with
      | some (s, r) => some (c :: s, r)
      | none => none

/-- Consume an exact literal; returns the remainder on success. -/
def expectLit : List Char → List Char → Option (List Char)
  | [], l => some l
  | _ :: _, [] => none
  | p :: ps, c :: cs => if p = c then expectLit ps cs else none

/-- Modelled from the spec: the platform deserialization performed by KV
`get(key, "json")`.  The store adapter contract (spec 4.1) "fetches and
deserializes; returns absent if key unset or malformed", so any value not
shaped like a serialized `StoredArticle` record decodes to `none`. -/
def decodeArticle (s : String) : Option StoredArticle :=
  match expectLit "\x7b\"key\":\"".data s.data with
  | none => none
  | some r0 =>
    match readJString r0 with
    | none => none
    | some (k, r1) =>
      match expectLit ",\"title\":\"".data r1 with
      | none => none
      | some r2 =>
        match readJString r2 with
        | none => none
        | some (t, r3) =>
          match expectLit ",\"bodyHtml\":\"".data r3 with
          | none => none
          | some r4 =>
            match readJString r4 with
            | none => none
            | some (b, r5) =>
              match expectLit ",\"date\":\"".data r5 with
              | none => none
              | some r6 =>
                match readJString r6 with
                | none => none
                | some (d, r7) =>
                  match expectLit ",\"topic\":\"".data r7 with
                  | none => none
                  | some r8 =>
                    match readJString r8 with
                    | none => none
                    | some (tp, r9) =>
                      match r9 with
                      | ['}'] =>
                        some ⟨strOf k, strOf t, strOf b, strOf d, strOf tp⟩
                      | _ => none

/-- Scan forward to the first `>` and return what follows it; `none` when
no `>` occurs.  This is the behaviour of `[^>]*>` inside the source
regexes: the star can stop only at a `>`, so the match is forced to the
first one. -/
def scanToGt : List Char → Option (List Char)
  | [] => none
  | c :: r => if c = '>' then some r else scanToGt r

/-- Strip the optional `\/` after `<` in the sanitizer regex `<\/?(...)`. -/
def tagTail (r : List Char) : List Char :=
  match r with
  | c :: rest => if c = '/' then rest else r
  | [] => r

/-- Does the two-character tag name (case-insensitively) spell `ul`, `ol`
or `li`?  This is the `(ul|ol|li)` alternation of the sanitizer regex. -/
def isListTagPair (a b : Char) : Bool :=
  (ciEq a 'u' && ciEq b 'l') || (ciEq a 'o' && ciEq b 'l') || (ciEq a 'l' && ciEq b 'i')

/-- Match of the sanitizer regex `<\/?(ul|ol|li)[^>]*>` starting exactly
at the head of `l`; returns the remainder after the match. -/
def matchListTagAt (l : List Char) : Option (List Char) :=
  match l with
  | c :: rest =>
    if c = '<' then
      match tagTail rest with
      | a :: b :: r3 => if isListTagPair a b then scanToGt r3 else none
      | _ => none
    else none
  | [] => none

/-- Embeds the first sanitizer stage
`html.replace(/<\/?(ul|ol|li)[^>]*>/gi, "")`: repeatedly delete the
leftmost list-tag match and continue scanning after it.  The fuel counts
the remaining scan steps; every step consumes at least one character, so
`l.length` steps always suffice and the fuel-exhausted branch is never
taken on the initial call. -/
def stripListTagsGo : Nat → List Char → List Char
  | 0, l => l
  | fuel + 1, l =>
    match matchListTagAt l with
    | some r => stripListTagsGo fuel r
    | none =>
      match l with
      | [] => []
      | c :: cs => c :: stripListTagsGo fuel cs

/-- The first sanitizer stage at its natural fuel budget. -/
def stripListTagsAll (l : List Char) : List Char := stripListTagsGo l.length l

/-- Match of the bullet regex `^\s*[-•]\s+` (with the `m` flag) at a
line-start position: leading whitespace, a bullet glyph, then at least
one whitespace character, all runs forced maximal.  Returns the remainder
and whether the match ended just after a line terminator (so the next
position is again a line start). -/
def bulletMatchAt (l : List Char) : Option (List Char × Bool) :=
  match l.dropWhile isJsWs with
  | c :: r =>
    if c = '-' || c = '•' then
      match r.takeWhile isJsWs with
      | [] => none
      | run2 =>
        some (r.dropWhile isJsWs,
          (match run2.getLast? with
           | some lastc => isLineTerm lastc
           | none => false))
    else none
  | [] => none

/-- Embeds the third sanitizer stage
`cleaned.replace(/^\s*[-•]\s+/gm, "")`: at every line-start position,
delete a bullet match; elsewhere copy.  `atStart` records whether the
current position is the start of the string or just after a line
terminator (where the multiline `^` matches).  The fuel counts scan
steps; every step consumes at least one character, so `l.length` steps
always suffice. -/
def stripBulletsGo : Nat → List Char → Bool → List Char
  | 0, l, _ => l
  | fuel + 1, l, atStart =>
    if atStart then
      match bulletMatchAt l with
      | some (rest, nl) => stripBulletsGo fuel rest nl
      | none =>
        match l with
        | [] => []
        | c :: cs => c :: stripBulletsGo fuel cs (isLineTerm c)
    else
      match l with
      | [] => []
      | c :: cs => c :: stripBulletsGo fuel cs (isLineTerm c)

/-- The third sanitizer stage at its natural fuel budget. -/
def stripBullets (l : List Char) (atStart : Bool) : List Char :=
  stripBulletsGo l.length l atStart

/-- Embeds `sanitizeGeneratedHtml`: drop list tags, remove every `*`,
strip leading bullet glyphs line by line. -/
def sanitizeGeneratedHtml (s : String) : String :=
  let cleaned := stripListTagsAll s.data
  let cleaned2 := cleaned.filter (fun c => ¬ c = '*')
  strOf (stripBullets cleaned2 true)

/-- Worker loop for the title cleanup `firstLine.replace(/<[^>]*>/g, "")`.
While `buf` is `none` we are outside a tag and copy characters; on `<` we
start buffering; a `>` discards the buffer (the tag matched); if the
input ends first, the buffered characters were not part of a match and
are emitted verbatim. -/
def stripTagsAux : List Char → Option (List Char) → List Char
  | [], none => []
  | [], some buf => buf.reverse
  | c :: rest, none =>
    if c = '<' then stripTagsAux rest (some ['<']) else c :: stripTagsAux rest none
  | c :: rest, some buf =>
    if c = '>' then stripTagsAux rest none else stripTagsAux rest (some (c :: buf))

/-- Embeds `str.replace(/<[^>]*>/g, "")`: delete every complete HTML tag. -/
def stripHtmlTags (l : List Char) : List Char := stripTagsAux l none

/-- Match of `<h[12][^>]*>\s*T\s*<\/h[12]>` (flag `i`) starting exactly at
the head of `l`, where `T` is the literal trimmed title (the source
builds the pattern from `escapeRegExp(title.trim())`, so the title is
matched literally).  The whitespace runs are forced maximal because the
title is trimmed and `<` is not whitespace; returns the remainder after
the match. -/
def matchHeadingAt (l t : List Char) : Option (List Char) :=
  match l with
  | c0 :: c1 :: c2 :: rest =>
    if c0 = '<' && ciEq c1 'h' && (c2 = '1' || c2 = '2') then
      match scanToGt rest with
      | none => none
      | some r1 =>
        match matchCI t (r1.dropWhile isJsWs) with
        | none => none
        | some r3 =>
          match r3.dropWhile isJsWs with
          | a0 :: a1 :: a2 :: a3 :: a4 :: r5 =>
            if a0 = '<' && a1 = '/' && ciEq a2 'h' && (a3 = '1' || a3 = '2') && a4 = '>'
            then some r5 else none
          | _ => none
    else none
  | _ => none

/-- Embeds `html.replace(headingPattern, "")` (no `g` flag): delete the
leftmost heading whose text is the trimmed title, if one occurs. -/
def replaceFirstHeading (l t : List Char) : List Char :=
  match matchHeadingAt l t with
  | some r => r
  | none =>
    match l with
    | [] => []
    | c :: cs => c :: replaceFirstHeading cs t

/-- Remainder of a character list after its last newline, if it has one. -/
def lastNlSplit : List Char → Option (List Char)
  | [] => none
  | c :: rs => if c = '\n' then some ((lastNlSplit rs).getD rs) else lastNlSplit rs

/-- Embeds `cleaned.replace(plainLinePattern, "")` with
`plainLinePattern = ^\s*T\s*(\n|$)` (flag `i`, no `m`): at the very start
of the string, optional whitespace, the literal trimmed title, then
whitespace up to and including a newline — by backtracking, the match
ends after the last newline of the trailing whitespace run — or the end
of the string.  When no such match exists the input is unchanged. -/
def replacePlainLeading (l t : List Char) : List Char :=
  if t.isEmpty then
    match lastNlSplit (l.takeWhile isJsWs) with
    | some after =>
      if (l.dropWhile isJsWs).isEmpty then [] else after ++ l.dropWhile isJsWs
    | none => if (l.dropWhile isJsWs).isEmpty then [] else l
  else
    match matchCI t (l.dropWhile isJsWs) with
    | none => l
    | some l2 =>
      if (l2.dropWhile isJsWs).isEmpty then []
      else
        match lastNlSplit (l2.takeWhile isJsWs) with
        | some after => after ++ l2.dropWhile isJsWs
        | none => l

/-- Embeds `removeTitleFromBody(html, title)`: empty titles are returned
unchanged; otherwise one heading duplicate and one leading plain-line
duplicate of the trimmed title are deleted as above. -/
def removeTitleFromBody (html title : String) : String :=
  if title = "" then html
  else
    let t := jsTrim title.data
    let cleaned := replaceFirstHeading html.data t
    strOf (replacePlainLeading cleaned t)

/-- One stage of `escapeHtml`: `str.replace(/c/g, rep)` for a single
character `c` and a replacement free of `$` patterns. -/
def replaceAllChar (c : Char) (rep : List Char) (l : List Char) : List Char :=
  l.flatMap (fun d => if d = c then rep else [d])

/-- Embeds `escapeHtml`: the source chains five global single-character
replaces, ampersand first. -/
def escapeHtml (s : String) : String :=
  strOf (replaceAllChar '\'' "&#039;".data
    (replaceAllChar '"' "&quot;".data
      (replaceAllChar '>' "&gt;".data
        (replaceAllChar '<' "&lt;".data
          (replaceAllChar '&' "&amp;".data s.data)))))

/-- First non-blank line of the sanitized model output, with the source
default: `cleanedBody.split("\n").find((l) => l.trim().length > 0) ?? "Daily Insight"`. -/
def firstNonBlankLine (l : List Char) : List Char :=
  ((splitNl l).find? (fun g => 0 < (jsTrim g).length)).getD "Daily Insight".data

/-- The article record assembled by `generateDailyArticle` once the model
has answered: sanitize the raw output, derive the title from the first
non-blank line with tags stripped and trimmed, fall back to
`Daily Insight – <date>` when that is empty, and de-duplicate the title
from the body. -/
def buildArticle (raw : String) (now : Nat) : StoredArticle :=
  let today := toISODate now
  let topic := pickTopicForToday now
  let cleanedBody := sanitizeGeneratedHtml raw
  let title := strOf (jsTrim (stripHtmlTags (firstNonBlankLine cleanedBody.data)))
  let titled := if title = "" then "Daily Insight – " ++ today else title
  { key := todayKey now, title := titled,
    bodyHtml := removeTitleFromBody cleanedBody titled,
    date := today, topic := topic }

/-- Embeds `generateDailyArticle(env)`.  `hasArticles` and `hasAI` say
whether the two collaborator bindings are configured; `raw` is the text
the model returns for this invocation (`String(response.response ?? "")`),
abstracting the model collaborator; `now` is the clock.  Returns the new
store state and whether the model was invoked (the source reaches the
`env.AI.run` call exactly when it goes on to write). -/
def generateDailyArticle (hasArticles hasAI : Bool) (raw : String) (now : Nat)
    (s : Store) : Store × Bool :=
  if !hasArticles || !hasAI then (s, false)
  else if truthy (kvGet s (todayKey now)) then (s, false)
  else
    let a := buildArticle raw now
    (kvPut (kvPut s (todayKey now) (encodeArticle a)) "latest-key" (todayKey now), true)

/-- The article metadata triple served by the archive listing and the
recent-links section. -/
structure ArticleMeta where
  date : String
  title : String
  topic : String
deriving DecidableEq, Repr

/-- Projection pushed by the `getRecentArticles` loop. -/
def metaOf (a : StoredArticle) : ArticleMeta := ⟨a.date, a.title, a.topic⟩

/-- The items collected by `getRecentArticles` before sorting: for each
listed `article:` key, fetch and deserialize, skipping falsy results. -/
def articleItems (s : Store) : List ArticleMeta :=
  (kvListPre s "article:").filterMap
    (fun k => ((kvGet s k).bind (fun v => decodeArticle v)).map metaOf)

/-- The order imposed by the source comparator
`(a, b) => (a.date < b.date ? 1 : -1)`: `a` is placed before `b` exactly
when `a.date` is not below `b.date`, i.e. dates descending. -/
def dateDesc (a b : ArticleMeta) : Prop := lexLe b.date.data a.date.data = true

instance : DecidableRel dateDesc := fun a b => by unfold dateDesc; infer_instance

/-- Embeds `getRecentArticles(env, limit)`: collect the stored records,
sort newest first, return the first `limit`. -/
def getRecentArticles (hasArticles : Bool) (s : Store) (limit : Nat) : List ArticleMeta :=
  if !hasArticles then []
  else (List.insertionSort dateDesc (articleItems s)).take limit

/-- Status code of `renderArticleByKey(env, key)` (the rendered markup is
status-irrelevant and the spec scopes the template strings out): 500 when
the store binding is missing or the record at `key` is absent or does not
deserialize, else 200. -/
def renderArticleByKey (hasArticles : Bool) (s : Store) (k : String) : Nat :=
  if !hasArticles then 500
  else
    match (kvGet s k).bind (fun v => decodeArticle v) with
    | none => 500
    | some _ => 200

/-- Status code of `renderArticleByDate(env, date)` (route
`GET /article/<date>`): 500 without the store binding, 404 when
`article:<date>` is unset (or empty), else render that key. -/
def renderArticleByDate (hasArticles : Bool) (s : Store) (date : String) : Nat :=
  if !hasArticles then 500
  else if !truthy (kvGet s ("article:" ++ date)) then 404
  else renderArticleByKey true s ("article:" ++ date)

/-- Embeds `renderLatestArticle(env)` (route `GET /`): look up the
`latest-key` pointer; if it is unset and the model binding is present,
generate synchronously and retry; 503 when still unset; else render the
pointed-to key.  Returns the status code and the (possibly extended)
store state. -/
def renderLatestArticle (hasArticles hasAI : Bool) (raw : String) (now : Nat)
    (s : Store) : Nat × Store :=
  if !hasArticles then (500, s)
  else
    let lk := kvGet s "latest-key"
    if truthy lk then (renderArticleByKey true s (lk.getD ""), s)
    else
      if hasAI then
        let s1 := (generateDailyArticle true true raw now s).1
        let lk1 := kvGet s1 "latest-key"
        if truthy lk1 then (renderArticleByKey true s1 (lk1.getD ""), s1)
        else (503, s1)
      else (503, s)

/-- The store states reachable by the system, indexed by the list of
article keys in creation order: the store starts empty, and every write
goes through `generateDailyArticle` (invoked by the cron trigger or
inline by `renderLatestArticle`), which appends the day key to the log
exactly when it generates. -/
inductive ReachableLog : Store → List String → Prop
  | init : ReachableLog [] []
  | step (hasArticles hasAI : Bool) (raw : String) (now : Nat) (s : Store)
      (log : List String) :
      ReachableLog s log →
      ReachableLog (generateDailyArticle hasArticles hasAI raw now s).1
        (if (generateDailyArticle hasArticles hasAI raw now s).2
         then log ++ [todayKey now] else log)

/-- The store invariant maintained by every reachable state: logged keys
carry the `article:` prefix, an empty log means an empty store, the
`latest-key` pointer names the most recently logged key, and every logged
key holds a serialized article record. -/
def StoreInv (s : Store) (log : List String) : Prop :=
  (∀ k ∈ log, listStartsWith "article:".data k.data = true) ∧
  (log = [] → s = []) ∧
  (log ≠ [] → kvGet s "latest-key" = log.getLast?) ∧
  (∀ k ∈ log, ∃ a : StoredArticle, kvGet s k = some (encodeArticle a))


theorem encodeArticle_ne_empty (a : StoredArticle) : encodeArticle a ≠ "" := by
  intro h
  have h2 := congrArg (fun s : String => s.data.length) h
  simp only [encodeArticle, encodeArticleData, strOf] at h2
  simp [List.length_append] at h2

theorem kvGet_put_self (s : Store) (k v : String) : kvGet (kvPut s k v) k = some v := by
  unfold kvGet kvPut
  have h1 : List.find? (fun e => e.1 = k) (List.filter (fun e => ¬ e.1 = k) s) = none := by
    rw [List.find?_eq_none]
    intro x hx
    have h2 := (List.mem_filter.mp hx).2
    simp at h2 ⊢
    exact h2
  rw [List.find?_append, h1]
  simp [List.find?]

theorem find?_filter_of_imp (p q : (String × String) → Bool) (s : Store)
    (h : ∀ x, p x = true → q x = true) :
    List.find? p (List.filter q s) = List.find? p s := by
  induction s with
  | nil => rfl
  | cons e es ih =>
    by_cases hq : q e = true
    · rw [List.filter_cons_of_pos hq]
      by_cases hp : p e = true
      · rw [List.find?_cons_of_pos _ hp, List.find?_cons_of_pos _ hp]
      · rw [List.find?_cons_of_neg _ hp, List.find?_cons_of_neg _ hp, ih]
    · rw [List.filter_cons_of_neg (by simp_all)]
      have hp : ¬ p e = true := fun hpe => hq (h e hpe)
      rw [List.find?_cons_of_neg _ hp, ih]

theorem kvGet_put_other (s : Store) (k v k2 : String) (h : k2 ≠ k) :
    kvGet (kvPut s k v) k2 = kvGet s k2 := by
  unfold kvGet kvPut
  rw [List.find?_append]
  have h2 : List.find? (fun e => e.1 = k2) [(k, v)] = none := by
    rw [List.find?_eq_none]
    intro x hx
    simp at hx
    subst hx
    simp
    exact fun he => h he.symm
  rw [h2, find?_filter_of_imp]
  · simp
  · intro x hx
    simp at hx ⊢
    rw [hx]
    exact h

theorem gen_cases (hA hAI : Bool) (raw : String) (now : Nat) (s : Store) :
    generateDailyArticle hA hAI raw now s = (s, false) ∨
    (truthy (kvGet s (todayKey now)) = false ∧
     generateDailyArticle hA hAI raw now s =
       (kvPut (kvPut s (todayKey now) (encodeArticle (buildArticle raw now)))
         "latest-key" (todayKey now), true)) := by
  unfold generateDailyArticle
  split
  · left; rfl
  · split
    · left; rfl
    · right
      constructor
      · next hcond => simp at hcond; exact hcond
      · rfl

theorem listStartsWith_append (p m : List Char) : listStartsWith p (p ++ m) = true := by
  induction p with
  | nil => rfl
  | cons c cs ih => simp [listStartsWith, ih]

theorem todayKey_ne_latest (d : String) : ("article:" ++ d) ≠ "latest-key" := by
  intro h
  have h2 := congrArg (fun s : String => s.data.head?) h
  simp only [String.data_append] at h2
  exact absurd h2 (by simp)

theorem startsArticle_ne_latest (k : String)
    (h : listStartsWith "article:".data k.data = true) : k ≠ "latest-key" := by
  intro he
  subst he
  simp [listStartsWith] at h

theorem reachable_invariant {s : Store} {log : List String}
    (h : ReachableLog s log) : StoreInv s log := by
  induction h with
  | init =>
    exact ⟨by simp, fun _ => rfl, by simp, by simp⟩
  | step hA hAI raw now s log hr ih =>
    rcases gen_cases hA hAI raw now s with heq | ⟨htr, heq⟩
    · rw [heq]
      simpa using ih
    · have hg1 : (generateDailyArticle hA hAI raw now s).1 =
          kvPut (kvPut s (todayKey now) (encodeArticle (buildArticle raw now)))
            "latest-key" (todayKey now) := by rw [heq]
      have hg2 : (generateDailyArticle hA hAI raw now s).2 = true := by rw [heq]
      rw [hg1, hg2]
      simp only [if_true]
      obtain ⟨ih0, ih1, ih2, ih3⟩ := ih
      have hkey : listStartsWith "article:".data (todayKey now).data = true := by
        unfold todayKey
        rw [String.data_append]
        exact listStartsWith_append _ _
      have hknl : todayKey now ≠ "latest-key" := todayKey_ne_latest _
      have hnotin : todayKey now ∉ log := by
        intro hmem
        obtain ⟨a, ha⟩ := ih3 _ hmem
        rw [ha] at htr
        simp [truthy] at htr
        exact encodeArticle_ne_empty a htr
      refine ⟨?_, ?_, ?_, ?_⟩
      · intro k hk
        rcases List.mem_append.mp hk with hk | hk
        · exact ih0 k hk
        · simp at hk; subst hk; exact hkey
      · intro hl
        exact absurd hl (by simp)
      · intro _
        rw [List.getLast?_concat, kvGet_put_self]
      · intro k hk
        rcases List.mem_append.mp hk with hk | hk
        · obtain ⟨a, ha⟩ := ih3 k hk
          refine ⟨a, ?_⟩
          have hk1 : k ≠ "latest-key" := startsArticle_ne_latest k (ih0 k hk)
          have hk2 : k ≠ todayKey now := fun he => hnotin (he ▸ hk)
          rw [kvGet_put_other _ _ _ _ hk1, kvGet_put_other _ _ _ _ hk2, ha]
        · simp at hk
          subst hk
          refine ⟨buildArticle raw now, ?_⟩
          rw [kvGet_put_other _ _ _ _ hknl, kvGet_put_self]

/-- C1: if the store already holds a record under today's key
`article:<YYYY-MM-DD>`, invoking `generateDailyArticle` again for that
date is a no-op: the store is returned unchanged and the model-call flag
is false. -/
theorem generateDailyArticle_idempotent (hasArticles hasAI : Bool) (raw : String)
    (now : Nat) (s : Store) (a : StoredArticle)
    (h : kvGet s (todayKey now) = some (encodeArticle a)) :
    generateDailyArticle hasArticles hasAI raw now s = (s, false) := by
  rcases gen_cases hasArticles hasAI raw now s with heq | ⟨htr, _⟩
  · exact heq
  · rw [h] at htr
    simp [truthy] at htr
    exact absurd htr (encodeArticle_ne_empty a)

/-- Witness for C1 at a concrete store holding a record for 1970-01-01. -/
theorem generateDailyArticle_idempotent_witness :
    generateDailyArticle true true "second run" 0
        [(todayKey 0, encodeArticle ⟨"article:1970-01-01", "T", "<p>x</p>", "1970-01-01", "t"⟩)]
      = ([(todayKey 0, encodeArticle ⟨"article:1970-01-01", "T", "<p>x</p>", "1970-01-01", "t"⟩)], false) :=
  generateDailyArticle_idempotent true true "second run" 0 _
    ⟨"article:1970-01-01", "T", "<p>x</p>", "1970-01-01", "t"⟩ (by rfl)

/-- C3: after every successful (non-skipped) run of
`generateDailyArticle` the store entry `latest-key` references the key of
the article just written, and in every reachable store state with at
least one article the `latest-key` entry references the most recently
created article's key (the last key of the creation log). -/
theorem latestKey_invariant (hA hAI : Bool) (raw : String) (now : Nat)
    (s : Store) (log : List String) (hreach : ReachableLog s log) :
    ((generateDailyArticle hA hAI raw now s).2 = true →
      kvGet (generateDailyArticle hA hAI raw now s).1 "latest-key" = some (todayKey now)) ∧
    (s ≠ [] → log ≠ [] ∧ kvGet s "latest-key" = log.getLast?) := by
  constructor
  · intro hw
    rcases gen_cases hA hAI raw now s with heq | ⟨_, heq⟩
    · rw [heq] at hw
      simp at hw
    · rw [heq]
      exact kvGet_put_self _ _ _
  · intro hs
    have inv := reachable_invariant hreach
    have hlog : log ≠ [] := fun hl => hs (inv.2.1 hl)
    exact ⟨hlog, inv.2.2.1 hlog⟩

/-- Witness for C3: a concrete generation step from the empty store sets
the latest-key pointer to the day key. -/
theorem latestKey_invariant_witness :
    kvGet (generateDailyArticle true true "<p>w</p>" 0 []).1 "latest-key" = some (todayKey 0) :=
  (latestKey_invariant true true "<p>w</p>" 0 [] [] ReachableLog.init).1 (by rfl)

theorem expectLit_append (p l : List Char) : expectLit p (p ++ l) = some l := by
  induction p with
  | nil => rfl
  | cons c cs ih => simp [expectLit, ih]

theorem expectLit_length : ∀ {p l r : List Char}, expectLit p l = some r →
    r.length + p.length = l.length := by
  intro p
  induction p with
  | nil =>
    intro l r h
    simp [expectLit] at h
    subst h
    simp
  | cons c cs ih =>
    intro l r h
    match l with
    | [] => simp [expectLit] at h
    | d :: ds =>
      simp only [expectLit] at h
      by_cases hc : c = d
      · rw [if_pos hc] at h
        have := ih h
        simp
        omega
      · rw [if_neg hc] at h
        exact absurd h (by simp)

/-- One decoding step of the canonical inverse of `escapeHtml`: consume
either one of the five named entities or a single literal character.
This decoder is not part of the source; it witnesses that the escaping is
lossless. -/
def unescStep (l : List Char) : Option (Char × List Char) :=
  match l with
  | [] => none
  | c :: rest =>
    if c = '&' then
      match expectLit "amp;".data rest with
      | some r => some ('&', r)
      | none =>
        match expectLit "lt;".data rest with
        | some r => some ('<', r)
        | none =>
          match expectLit "gt;".data rest with
          | some r => some ('>', r)
          | none =>
            match expectLit "quot;".data rest with
            | some r => some ('"', r)
            | none =>
              match expectLit "#039;".data rest with
              | some r => some ('\'', r)
              | none => some (c, rest)
    else some (c, rest)

theorem unescStep_length : ∀ {l : List Char} {c : Char} {r : List Char},
    unescStep l = some (c, r) → r.length < l.length := by
  intro l c r h
  match l with
  | [] => simp [unescStep] at h
  | d :: rest =>
    simp only [unescStep] at h
    by_cases hd : d = '&'
    · rw [if_pos hd] at h
      split at h
      · next heq =>
        cases h
        have := expectLit_length heq
        simp at this ⊢
        omega
      · split at h
        · next heq =>
          cases h
          have := expectLit_length heq
          simp at this ⊢
          omega
        · split at h
          · next heq =>
            cases h
            have := expectLit_length heq
            simp at this ⊢
            omega
          · split at h
            · next heq =>
              cases h
              have := expectLit_length heq
              simp at this ⊢
              omega
            · split at h
              · next heq =>
                cases h
                have := expectLit_length heq
                simp at this ⊢
                omega
              · cases h
                simp
    · rw [if_neg hd] at h
      cases h
      simp

/-- Canonical inverse of `escapeHtml` (not in the source): repeatedly
apply `unescStep`. -/
def unescHtml (l : List Char) : List Char :=
  match h : unescStep l with
  | some (c, r) => c :: unescHtml r
  | none => []
termination_by l.length
decreasing_by
  exact unescStep_length h

theorem unescHtml_some {l : List Char} {c : Char} {r : List Char}
    (h : unescStep l = some (c, r)) : unescHtml l = c :: unescHtml r := by
  rw [unescHtml]
  split
  · next c2 r2 heq =>
    rw [h] at heq
    cases heq
    rfl
  · next heq =>
    rw [h] at heq
    cases heq

def escCharSpec (c : Char) : List Char :=
  if c = '&' then "&amp;".data
  else if c = '<' then "&lt;".data
  else if c = '>' then "&gt;".data
  else if c = '"' then "&quot;".data
  else if c = '\'' then "&#039;".data
  else [c]


theorem replaceAllChar_append (c : Char) (rep l1 l2 : List Char) :
    replaceAllChar c rep (l1 ++ l2) = replaceAllChar c rep l1 ++ replaceAllChar c rep l2 := by
  simp [replaceAllChar]

def escListStages (l : List Char) : List Char :=
  replaceAllChar '\'' "&#039;".data
    (replaceAllChar '"' "&quot;".data
      (replaceAllChar '>' "&gt;".data
        (replaceAllChar '<' "&lt;".data
          (replaceAllChar '&' "&amp;".data l))))

theorem escapeHtml_stages (s : String) : escapeHtml s = strOf (escListStages s.data) := rfl

theorem escListStages_append (l1 l2 : List Char) :
    escListStages (l1 ++ l2) = escListStages l1 ++ escListStages l2 := by
  simp [escListStages, replaceAllChar_append]

theorem escListStages_single (c : Char) : escListStages [c] = escCharSpec c := by
  by_cases h1 : c = '&'
  · subst h1; rfl
  · by_cases h2 : c = '<'
    · subst h2; rfl
    · by_cases h3 : c = '>'
      · subst h3; rfl
      · by_cases h4 : c = '"'
        · subst h4; rfl
        · by_cases h5 : c = '\''
          · subst h5; rfl
          · simp [escListStages, replaceAllChar, escCharSpec, h1, h2, h3, h4, h5]

theorem escListStages_flatMap (l : List Char) :
    escListStages l = l.flatMap escCharSpec := by
  induction l with
  | nil => rfl
  | cons c cs ih =>
    have hsplit : (c :: cs) = [c] ++ cs := rfl
    rw [hsplit, escListStages_append, escListStages_single, List.flatMap_append, ih]
    simp

theorem unescStep_escCharSpec (c : Char) (rest : List Char) :
    unescStep (escCharSpec c ++ rest) = some (c, rest) := by
  by_cases h1 : c = '&'
  · subst h1
    show unescStep ('&' :: ("amp;".data ++ rest)) = some ('&', rest)
    rfl
  · by_cases h2 : c = '<'
    · subst h2
      show unescStep ('&' :: ("lt;".data ++ rest)) = some ('<', rest)
      rfl
    · by_cases h3 : c = '>'
      · subst h3
        show unescStep ('&' :: ("gt;".data ++ rest)) = some ('>', rest)
        rfl
      · by_cases h4 : c = '"'
        · subst h4
          show unescStep ('&' :: ("quot;".data ++ rest)) = some ('"', rest)
          rfl
        · by_cases h5 : c = '\''
          · subst h5
            show unescStep ('&' :: ("#039;".data ++ rest)) = some ('\'', rest)
            rfl
          · have hspec : escCharSpec c = [c] := by
              simp [escCharSpec, h1, h2, h3, h4, h5]
            rw [hspec]
            show unescStep (c :: rest) = some (c, rest)
            simp [unescStep, h1]

theorem unescHtml_nil : unescHtml [] = [] := by
  rw [unescHtml]
  split
  · next heq => simp [unescStep] at heq
  · rfl

theorem unescHtml_escape (l : List Char) : unescHtml (l.flatMap escCharSpec) = l := by
  induction l with
  | nil =>
    rw [show ([] : List Char).flatMap escCharSpec = [] by simp, unescHtml_nil]
  | cons c cs ih =>
    rw [List.flatMap_cons, unescHtml_some (unescStep_escCharSpec c _), ih]

/-- C9: `escapeHtml` maps each of the five reserved characters to its
HTML entity and leaves every other character unchanged (its output is the
per-character mapping `escCharSpec` applied across the string), and the
original string is recoverable: the canonical entity decoder `unescHtml`
inverts it on every input. -/
theorem escapeHtml_roundtrip :
    (∀ s : String, escapeHtml s = strOf (s.data.flatMap escCharSpec)) ∧
    (∀ s : String, strOf (unescHtml (escapeHtml s).data) = s) := by
  have hesc : ∀ s : String, escapeHtml s = strOf (s.data.flatMap escCharSpec) := by
    intro s
    rw [escapeHtml_stages, escListStages_flatMap]
  refine ⟨hesc, ?_⟩
  intro s
  rw [hesc]
  show strOf (unescHtml (s.data.flatMap escCharSpec)) = s
  rw [unescHtml_escape]
  rfl

/-- C2: for every pair of timestamps falling in the same UTC calendar
day, `pickTopicForToday` returns the same topic, computed as the fixed
8-entry topic list indexed by `floor(unixTimeMillis / 86400000) mod 8`;
across any 8 consecutive days it cycles through all 8 topics in fixed
order (the window starting at day `d` is the topic list rotated by
`d mod 8`, hence a permutation of the whole list). -/
theorem pickTopicForToday_schedule :
    (∀ t1 t2 : Nat, dayIndex t1 = dayIndex t2 →
      pickTopicForToday t1 = pickTopicForToday t2) ∧
    (∀ t : Nat, pickTopicForToday t = TOPIC_BUCKETS.getD (dayIndex t % 8) "") ∧
    (∀ d : Nat,
      ((List.range 8).map (fun i => pickTopicForToday ((d + i) * 86400000)))
        = TOPIC_BUCKETS.rotate (d % 8) ∧
      ((List.range 8).map (fun i => pickTopicForToday ((d + i) * 86400000))).Perm
        TOPIC_BUCKETS) := by
  have hday : ∀ t : Nat, pickTopicForToday t = TOPIC_BUCKETS.getD (dayIndex t % 8) "" :=
    fun t => rfl
  refine ⟨?_, hday, ?_⟩
  · intro t1 t2 h
    rw [hday, hday, h]
  · intro d
    have key : ∀ i : Nat, i < 8 →
        pickTopicForToday ((d + i) * 86400000) = TOPIC_BUCKETS.getD ((d % 8 + i) % 8) "" := by
      intro i hi
      rw [hday]
      have h1 : dayIndex ((d + i) * 86400000) = d + i := by
        unfold dayIndex
        exact Nat.mul_div_cancel _ (by norm_num)
      rw [h1, Nat.add_mod, Nat.mod_eq_of_lt hi]
    have hrot :
        ((List.range 8).map (fun i => pickTopicForToday ((d + i) * 86400000)))
          = TOPIC_BUCKETS.rotate (d % 8) := by
      have hexp : ((List.range 8).map (fun i => pickTopicForToday ((d + i) * 86400000)))
          = [pickTopicForToday ((d + 0) * 86400000), pickTopicForToday ((d + 1) * 86400000),
             pickTopicForToday ((d + 2) * 86400000), pickTopicForToday ((d + 3) * 86400000),
             pickTopicForToday ((d + 4) * 86400000), pickTopicForToday ((d + 5) * 86400000),
             pickTopicForToday ((d + 6) * 86400000), pickTopicForToday ((d + 7) * 86400000)] := rfl
      rw [hexp, key 0 (by norm_num), key 1 (by norm_num), key 2 (by norm_num),
        key 3 (by norm_num), key 4 (by norm_num), key 5 (by norm_num),
        key 6 (by norm_num), key 7 (by norm_num)]
      have hk : d % 8 < 8 := Nat.mod_lt _ (by norm_num)
      interval_cases h : d % 8 <;> rfl
    exact ⟨hrot, hrot ▸ List.rotate_perm TOPIC_BUCKETS (d % 8)⟩

/-- Witness for C2: two timestamps inside the same UTC day (its first and
last millisecond) receive the same topic. -/
theorem pickTopicForToday_schedule_witness :
    pickTopicForToday 0 = pickTopicForToday 86399999 :=
  pickTopicForToday_schedule.1 0 86399999 (by decide)

theorem hexVal_hexDigit (n : Nat) (h : n < 16) : hexVal (hexDigit n) = some n := by
  interval_cases n <;> rfl

theorem readJString_escape : ∀ (cs rest : List Char),
    readJString (cs.flatMap escJsonChar ++ '"' :: rest) = some (cs, rest) := by
  intro cs
  induction cs with
  | nil =>
    intro rest
    rw [show ([] : List Char).flatMap escJsonChar ++ '"' :: rest = '"' :: rest by simp]
    rw [readJString.eq_def]
    simp
  | cons c cs ih =>
    intro rest
    rw [List.flatMap_cons, List.append_assoc]
    by_cases h1 : c = '"'
    · subst h1
      show readJString ('\\' :: '"' :: (cs.flatMap escJsonChar ++ '"' :: rest)) = _
      rw [readJString.eq_def]
      simp [ih]
    · by_cases h2 : c = '\\'
      · subst h2
        show readJString ('\\' :: '\\' :: (cs.flatMap escJsonChar ++ '"' :: rest)) = _
        rw [readJString.eq_def]
        simp [ih]
      · by_cases h3 : c = '\n'
        · subst h3
          show readJString ('\\' :: 'n' :: (cs.flatMap escJsonChar ++ '"' :: rest)) = _
          rw [readJString.eq_def]
          simp [ih]
        · by_cases h4 : c = '\r'
          · subst h4
            show readJString ('\\' :: 'r' :: (cs.flatMap escJsonChar ++ '"' :: rest)) = _
            rw [readJString.eq_def]
            simp [ih]
          · by_cases h5 : c = '\t'
            · subst h5
              show readJString ('\\' :: 't' :: (cs.flatMap escJsonChar ++ '"' :: rest)) = _
              rw [readJString.eq_def]
              simp [ih]
            · by_cases h6 : c = '\x08'
              · subst h6
                show readJString ('\\' :: 'b' :: (cs.flatMap escJsonChar ++ '"' :: rest)) = _
                rw [readJString.eq_def]
                simp [ih]
              · by_cases h7 : c = '\x0c'
                · subst h7
                  show readJString ('\\' :: 'f' :: (cs.flatMap escJsonChar ++ '"' :: rest)) = _
                  rw [readJString.eq_def]
                  simp [ih]
                · by_cases h8 : c.toNat < 0x20
                  · have hesc : escJsonChar c =
                        ['\\', 'u', '0', '0', hexDigit (c.toNat / 16), hexDigit (c.toNat % 16)] := by
                      simp [escJsonChar, h1, h2, h3, h4, h5, h6, h7, h8]
                    rw [hesc]
                    show readJString ('\\' :: 'u' :: '0' :: '0' :: hexDigit (c.toNat / 16) ::
                      hexDigit (c.toNat % 16) :: (cs.flatMap escJsonChar ++ '"' :: rest)) = _
                    have hdiv : c.toNat / 16 < 16 := by omega
                    have hmod : c.toNat % 16 < 16 := Nat.mod_lt _ (by norm_num)
                    have hv0 : hexVal '0' = some 0 := rfl
                    rw [readJString.eq_def]
                    simp [hv0, hexVal_hexDigit _ hdiv, hexVal_hexDigit _ hmod, ih]
                    have harith : c.toNat / 16 * 16 + c.toNat % 16 = c.toNat := by
                      have := Nat.div_add_mod c.toNat 16
                      omega
                    rw [harith, Char.ofNat_toNat]
                  · have hesc : escJsonChar c = [c] := by
                      simp [escJsonChar, h1, h2, h3, h4, h5, h6, h7, h8]
                    rw [hesc]
                    show readJString (c :: (cs.flatMap escJsonChar ++ '"' :: rest)) = _
                    rw [readJString.eq_def]
                    simp [h1, h2, ih]

/-- Deserialization inverts serialization on every article record. -/
theorem decodeArticle_encode (a : StoredArticle) :
    decodeArticle (encodeArticle a) = some a := by
  unfold decodeArticle
  rw [show (encodeArticle a).data = encodeArticleData a from rfl]
  unfold encodeArticleData
  simp only [expectLit_append, readJString_escape]
  rfl

/-- In any store satisfying the reachability invariant, rendering the key
the `latest-key` pointer holds succeeds with 200. -/
theorem renderArticleByKey_latest {s : Store} {log : List String}
    (inv : StoreInv s log) {k : String} (hlk : kvGet s "latest-key" = some k) :
    renderArticleByKey true s k = 200 := by
  have hlog : log ≠ [] := by
    intro hl
    rw [inv.2.1 hl] at hlk
    exact Option.noConfusion hlk
  have hgl := inv.2.2.1 hlog
  rw [hlk, List.getLast?_eq_getLast_of_ne_nil hlog] at hgl
  have hk : k = log.getLast hlog := Option.some.inj hgl
  have hmem : k ∈ log := hk ▸ List.getLast_mem hlog
  obtain ⟨a, ha⟩ := inv.2.2.2 k hmem
  unfold renderArticleByKey
  simp [ha, decodeArticle_encode]

/-- Unfolding of `renderLatestArticle` with the store binding present. -/
theorem renderLatest_unfold (hasAI : Bool) (raw : String) (now : Nat) (s : Store) :
    renderLatestArticle true hasAI raw now s =
      (if truthy (kvGet s "latest-key")
       then (renderArticleByKey true s ((kvGet s "latest-key").getD ""), s)
       else if hasAI then
         (if truthy (kvGet (generateDailyArticle true true raw now s).1 "latest-key")
          then (renderArticleByKey true (generateDailyArticle true true raw now s).1
                  ((kvGet (generateDailyArticle true true raw now s).1 "latest-key").getD ""),
                (generateDailyArticle true true raw now s).1)
          else (503, (generateDailyArticle true true raw now s).1))
       else (503, s)) := rfl

/-- C8: `GET /` returns 500 exactly when the store binding is missing; in
every reachable store state with the store configured, it returns 200 or
503, never 500. -/
theorem root_status_codes (hasAI : Bool) (raw : String) (now : Nat)
    (s : Store) (log : List String) (hreach : ReachableLog s log) :
    (renderLatestArticle false hasAI raw now s).1 = 500 ∧
    ((renderLatestArticle true hasAI raw now s).1 = 200 ∨
     (renderLatestArticle true hasAI raw now s).1 = 503) := by
  constructor
  · rfl
  · have inv := reachable_invariant hreach
    rw [renderLatest_unfold]
    by_cases hlt : truthy (kvGet s "latest-key") = true
    · rw [if_pos hlt]
      match heq : kvGet s "latest-key" with
      | none => rw [heq] at hlt; exact absurd hlt (by simp [truthy])
      | some k =>
        left
        exact renderArticleByKey_latest inv heq
    · rw [if_neg (by simp_all)]
      by_cases hAI : hasAI = true
      · rw [hAI, if_pos rfl]
        have hreach1 := ReachableLog.step true true raw now s log hreach
        have inv1 := reachable_invariant hreach1
        by_cases hlt1 : truthy (kvGet (generateDailyArticle true true raw now s).1 "latest-key") = true
        · rw [if_pos hlt1]
          match heq1 : kvGet (generateDailyArticle true true raw now s).1 "latest-key" with
          | none => rw [heq1] at hlt1; exact absurd hlt1 (by simp [truthy])
          | some k =>
            left
            exact renderArticleByKey_latest inv1 heq1
        · rw [if_neg (by simp_all)]
          right
          rfl
      · have : hasAI = false := by simp_all
        rw [this]
        right
        rfl

/-- Witness for C8 at the empty (initial) store. -/
theorem root_status_codes_witness :
    (renderLatestArticle false false "" 0 []).1 = 500 ∧
    ((renderLatestArticle true false "" 0 []).1 = 200 ∨
     (renderLatestArticle true false "" 0 []).1 = 503) :=
  root_status_codes false "" 0 [] [] ReachableLog.init

/-- C7: with the store binding configured, `GET /article/<date>` for a
date with no stored article returns 404, and `GET /` with no article yet
and the model binding absent returns 503. -/
theorem notFound_and_unavailable_status :
    (∀ (s : Store) (date : String), kvGet s ("article:" ++ date) = none →
      renderArticleByDate true s date = 404) ∧
    (∀ (s : Store) (raw : String) (now : Nat), kvGet s "latest-key" = none →
      (renderLatestArticle true false raw now s).1 = 503) := by
  constructor
  · intro s date h
    unfold renderArticleByDate
    rw [h]
    rfl
  · intro s raw now h
    rw [renderLatest_unfold, h]
    rfl

/-- Witness for C7 at the empty store and the never-generated date from
the spec example. -/
theorem notFound_and_unavailable_status_witness :
    renderArticleByDate true [] "2099-01-01" = 404 ∧
    (renderLatestArticle true false "model off" 0 []).1 = 503 :=
  ⟨notFound_and_unavailable_status.1 [] "2099-01-01" rfl,
   notFound_and_unavailable_status.2 [] "model off" 0 rfl⟩

theorem lexLe_total : ∀ (a b : List Char), lexLe a b = true ∨ lexLe b a = true := by
  intro a
  induction a with
  | nil => intro b; left; rfl
  | cons x xs ih =>
    intro b
    cases b with
    | nil => right; rfl
    | cons y ys =>
      simp only [lexLe]
      rcases lt_trichotomy x y with h | h | h
      · left; rw [if_pos h]
      · subst h
        have hn : ¬ x < x := lt_irrefl x
        simp only [if_neg hn]
        exact ih ys
      · right; rw [if_pos h]

theorem lexLe_trans : ∀ {a b c : List Char},
    lexLe a b = true → lexLe b c = true → lexLe a c = true := by
  intro a
  induction a with
  | nil => intro b c _ _; rfl
  | cons x xs ih =>
    intro b c hab hbc
    match b, c with
    | [], _ => simp [lexLe] at hab
    | y :: ys, [] => simp [lexLe] at hbc
    | y :: ys, z :: zs =>
      simp only [lexLe] at hab hbc ⊢
      by_cases hxy : x < y
      · by_cases hyz : y < z
        · rw [if_pos (lt_trans hxy hyz)]
        · by_cases hzy : z < y
          · rw [if_neg hyz, if_pos hzy] at hbc
            exact absurd hbc (by simp)
          · have hyzeq : y = z := le_antisymm (not_lt.mp hzy) (not_lt.mp hyz)
            subst hyzeq
            rw [if_pos hxy]
      · by_cases hyx : y < x
        · rw [if_neg hxy, if_pos hyx] at hab
          exact absurd hab (by simp)
        · have hxyeq : x = y := le_antisymm (not_lt.mp hyx) (not_lt.mp hxy)
          subst hxyeq
          rw [if_neg hxy, if_neg hyx] at hab
          by_cases hxz : x < z
          · rw [if_pos hxz]
          · by_cases hzx : z < x
            · rw [if_neg hxz, if_pos hzx] at hbc
              exact absurd hbc (by simp)
            · have hxzeq : x = z := le_antisymm (not_lt.mp hzx) (not_lt.mp hxz)
              subst hxzeq
              rw [if_neg hxz, if_neg hxz] at hbc ⊢
              exact ih hab hbc

instance : IsTotal ArticleMeta dateDesc :=
  ⟨fun a b => lexLe_total b.date.data a.date.data⟩

instance : IsTrans ArticleMeta dateDesc :=
  ⟨fun _ _ _ h1 h2 => lexLe_trans h2 h1⟩

/-- The three-article store of the C4 example, dated 2024-01-01,
2024-01-03, 2024-01-02 (inserted out of order). -/
def exampleStore : Store :=
  [("article:2024-01-01",
      encodeArticle ⟨"article:2024-01-01", "A", "<p>a</p>", "2024-01-01", "t1"⟩),
   ("article:2024-01-03",
      encodeArticle ⟨"article:2024-01-03", "C", "<p>c</p>", "2024-01-03", "t3"⟩),
   ("article:2024-01-02",
      encodeArticle ⟨"article:2024-01-02", "B", "<p>b</p>", "2024-01-02", "t2"⟩)]

/-- C4: for every store state and limit, the recent-articles listing
returns at most `limit` items sorted by date descending under lexical
comparison, and on the example store with dates 2024-01-01, 2024-01-03,
2024-01-02 it returns them in the order 03, 02, 01. -/
theorem getRecentArticles_sorted_bounded :
    (∀ (hasArticles : Bool) (s : Store) (limit : Nat),
      (getRecentArticles hasArticles s limit).length ≤ limit ∧
      List.Sorted dateDesc (getRecentArticles hasArticles s limit)) ∧
    getRecentArticles true exampleStore 50 =
      [⟨"2024-01-03", "C", "t3"⟩, ⟨"2024-01-02", "B", "t2"⟩,
       ⟨"2024-01-01", "A", "t1"⟩] := by
  constructor
  · intro hasArticles s limit
    unfold getRecentArticles
    cases hasArticles with
    | false => exact ⟨Nat.zero_le _, List.sorted_nil⟩
    | true =>
      simp only [Bool.not_true, Bool.false_eq_true, if_false]
      constructor
      · exact List.length_take_le _ _
      · exact List.Pairwise.sublist (List.take_sublist _ _)
          (List.sorted_insertionSort dateDesc _)
  · decide

theorem kvGet_cons_ne (e : String × String) (es : Store) (k : String) (h : ¬ e.1 = k) :
    kvGet (e :: es) k = kvGet es k := by
  unfold kvGet
  rw [List.find?_cons_of_neg _ (by simp [h])]

theorem kvGet_cons_self (e : String × String) (es : Store) :
    kvGet (e :: es) e.1 = some e.2 := by
  unfold kvGet
  rw [List.find?_cons_of_pos _ (by simp)]
  rfl

/-- The contribution of a single store entry to the listing: metadata
when the key has the `article:` prefix and the value deserializes,
nothing otherwise. -/
def entryMeta (e : String × String) : Option ArticleMeta :=
  if listStartsWith "article:".data e.1.data then (decodeArticle e.2).map metaOf else none

theorem articleItems_entries : ∀ (s : Store), (s.map Prod.fst).Nodup →
    articleItems s = s.filterMap entryMeta := by
  intro s
  induction s with
  | nil => intro _; rfl
  | cons e es ih =>
    intro hnd
    have hnd2 : (es.map Prod.fst).Nodup := (List.nodup_cons.mp (by simpa using hnd)).2
    have hnotin : e.1 ∉ es.map Prod.fst := (List.nodup_cons.mp (by simpa using hnd)).1
    have hcong : ∀ k ∈ (es.map Prod.fst).filter (fun k => listStartsWith "article:".data k.data),
        ((kvGet (e :: es) k).bind (fun v => decodeArticle v)).map metaOf =
        ((kvGet es k).bind (fun v => decodeArticle v)).map metaOf := by
      intro k hk
      have hmem : k ∈ es.map Prod.fst := (List.mem_filter.mp hk).1
      have hne : ¬ e.1 = k := fun he => hnotin (he ▸ hmem)
      rw [kvGet_cons_ne e es k hne]
    have htail : articleItems (e :: es) =
        List.filterMap (fun k => ((kvGet (e :: es) k).bind (fun v => decodeArticle v)).map metaOf)
          (List.filter (fun k => listStartsWith "article:".data k.data)
            (e.1 :: es.map Prod.fst)) := rfl
    by_cases hp : listStartsWith "article:".data e.1.data = true
    · rw [htail, List.filter_cons, if_pos hp]
      cases hdec : decodeArticle e.2 with
      | none =>
        have hh1 : (fun k => Option.map metaOf ((kvGet (e :: es) k).bind fun v => decodeArticle v))
            e.1 = none := by
          show Option.map metaOf ((kvGet (e :: es) e.1).bind fun v => decodeArticle v) = none
          rw [kvGet_cons_self]
          simp [hdec]
        have hh2 : entryMeta e = none := by simp [entryMeta, hp, hdec]
        rw [@List.filterMap_cons_none String ArticleMeta
              (fun k => Option.map metaOf ((kvGet (e :: es) k).bind fun v => decodeArticle v))
              e.1 (List.filter (fun k => listStartsWith "article:".data k.data)
                (List.map Prod.fst es)) hh1,
            List.filterMap_cons_none hh2]
        rw [List.filterMap_congr hcong]
        exact ih hnd2
      | some a =>
        have hh1 : (fun k => Option.map metaOf ((kvGet (e :: es) k).bind fun v => decodeArticle v))
            e.1 = some (metaOf a) := by
          show Option.map metaOf ((kvGet (e :: es) e.1).bind fun v => decodeArticle v)
            = some (metaOf a)
          rw [kvGet_cons_self]
          simp [hdec]
        have hh2 : entryMeta e = some (metaOf a) := by simp [entryMeta, hp, hdec]
        rw [@List.filterMap_cons_some String ArticleMeta
              (fun k => Option.map metaOf ((kvGet (e :: es) k).bind fun v => decodeArticle v))
              e.1 (List.filter (fun k => listStartsWith "article:".data k.data)
                (List.map Prod.fst es)) (metaOf a) hh1,
            List.filterMap_cons_some hh2]
        rw [List.filterMap_congr hcong]
        have hrest : List.filterMap
            (fun k => Option.map metaOf ((kvGet es k).bind fun v => decodeArticle v))
            (List.filter (fun k => listStartsWith "article:".data k.data)
              (List.map Prod.fst es)) = articleItems es := rfl
        rw [hrest, ih hnd2]
    · rw [htail, List.filter_cons, if_neg (by simp_all)]
      rw [List.filterMap_cons_none (by simp [entryMeta, hp])]
      rw [List.filterMap_congr hcong]
      exact ih hnd2

theorem filterMap_filter_eq {α β : Type} (p : α → Bool) (g : α → Option β) :
    ∀ (l : List α), (∀ e ∈ l, p e = false → g e = none) →
    (l.filter p).filterMap g = l.filterMap g := by
  intro l
  induction l with
  | nil => intro _; rfl
  | cons e es ih =>
    intro h
    have hes := fun x hx => h x (List.mem_cons_of_mem e hx)
    by_cases hp : p e = true
    · rw [List.filter_cons_of_pos hp]
      cases hg : g e with
      | none =>
        rw [List.filterMap_cons_none hg, List.filterMap_cons_none hg, ih hes]
      | some b =>
        rw [List.filterMap_cons_some hg, List.filterMap_cons_some hg, ih hes]
    · rw [List.filter_cons_of_neg (by simp_all)]
      have hg : g e = none := h e (List.mem_cons_self e es) (by simp_all)
      rw [List.filterMap_cons_none hg, ih hes]

/-- C10: any `article:`-prefixed key whose value fails deserialization is
silently omitted from the recent-articles listing: deleting all such
entries leaves the listing unchanged, and every listed item comes from an
entry that deserialized successfully (no placeholders). -/
theorem getRecentArticles_skips_undecodable (s : Store) (limit : Nat)
    (hnd : (s.map Prod.fst).Nodup) :
    (getRecentArticles true s limit =
      getRecentArticles true
        (s.filter (fun e => (decodeArticle e.2).isSome ||
          !(listStartsWith "article:".data e.1.data))) limit) ∧
    (∀ m ∈ getRecentArticles true s limit, ∃ k v a, (k, v) ∈ s ∧
      decodeArticle v = some a ∧ m = metaOf a) := by
  have hnd2 : ((s.filter (fun e => (decodeArticle e.2).isSome ||
      !(listStartsWith "article:".data e.1.data))).map Prod.fst).Nodup :=
    List.Nodup.sublist (List.Sublist.map Prod.fst (List.filter_sublist s)) hnd
  constructor
  · unfold getRecentArticles
    simp only [Bool.not_true, Bool.false_eq_true, if_false]
    rw [articleItems_entries s hnd, articleItems_entries _ hnd2]
    rw [filterMap_filter_eq _ _ s]
    intro e _ hpe
    simp only [Bool.or_eq_false_iff] at hpe
    have h1 : (decodeArticle e.2).isSome = false := hpe.1
    have h2 : listStartsWith "article:".data e.1.data = true := by
      rcases hpe with ⟨_, h2⟩
      simp at h2
      exact h2
    unfold entryMeta
    rw [if_pos h2]
    cases hdec : decodeArticle e.2 with
    | none => simp
    | some a => rw [hdec] at h1; simp at h1
  · intro m hm
    have hm2 : m ∈ List.insertionSort dateDesc (articleItems s) := by
      have : getRecentArticles true s limit =
          (List.insertionSort dateDesc (articleItems s)).take limit := by
        unfold getRecentArticles
        simp
      rw [this] at hm
      exact List.mem_of_mem_take hm
    have hm3 : m ∈ articleItems s := (List.perm_insertionSort dateDesc _).subset hm2
    rw [articleItems_entries s hnd] at hm3
    obtain ⟨e, hes, hge⟩ := List.mem_filterMap.mp hm3
    unfold entryMeta at hge
    by_cases hp : listStartsWith "article:".data e.1.data = true
    · rw [if_pos hp] at hge
      cases hdec : decodeArticle e.2 with
      | none => rw [hdec] at hge; exact absurd hge (by simp)
      | some a =>
        rw [hdec] at hge
        refine ⟨e.1, e.2, a, ?_, hdec, ?_⟩
        · exact (by simpa using hes)
        · simpa using hge.symm
    · rw [if_neg hp] at hge
      exact absurd hge (by simp)

/-- Witness for C10: a store holding only one undecodable article value
lists the same as its cleaned version (both empty). -/
theorem getRecentArticles_skips_undecodable_witness :
    getRecentArticles true [("article:bad", "not json")] 5 =
      getRecentArticles true
        ([("article:bad", "not json")].filter (fun e => (decodeArticle e.2).isSome ||
          !(listStartsWith "article:".data e.1.data))) 5 :=
  (getRecentArticles_skips_undecodable [("article:bad", "not json")] 5 (by decide)).1

/-- Counterexample to C6 as stated: for the model output `""` (no
non-blank line at all) the generator writes an article whose title is the
fixed string `Daily Insight`, not the dated fallback
`Daily Insight – <date>` the claim requires for that case. -/
theorem title_fallback_counterexample :
    (generateDailyArticle true true "" 0 []).2 = true ∧
    kvGet (generateDailyArticle true true "" 0 []).1 (todayKey 0) =
      some (encodeArticle (buildArticle "" 0)) ∧
    (buildArticle "" 0).title = "Daily Insight" ∧
    ("Daily Insight" : String) ≠ "Daily Insight – " ++ toISODate 0 :=
  ⟨rfl, rfl, by decide, by decide⟩

/-- The title derivation of the amended C6, following the claim's words:
the first non-blank line of the sanitized output — the fixed string
`Daily Insight` when there is none — with HTML tags stripped and
surrounding whitespace trimmed; the dated fallback exactly when that
derivation is empty. -/
def titleSpec (cleaned : String) (date : String) : String :=
  let fl := ((splitNl cleaned.data).find? (fun g => 0 < (jsTrim g).length)).getD
    "Daily Insight".data
  let t := strOf (jsTrim (stripHtmlTags fl))
  if t = "" then "Daily Insight – " ++ date else t

/-- C6 (amended): every non-skipped run stores an article whose title is
the first non-blank line of the sanitized output with tags stripped and
trimmed, falling back to `Daily Insight – <date>` exactly when that
derivation yields the empty string; when the output has no non-blank line
the derivation starts from the fixed line `Daily Insight` (so the stored
title is `Daily Insight`, with no dated fallback). -/
theorem title_derivation_amended (hA hAI : Bool) (raw : String) (now : Nat) (s : Store)
    (hw : (generateDailyArticle hA hAI raw now s).2 = true) :
    ∃ art : StoredArticle,
      kvGet (generateDailyArticle hA hAI raw now s).1 (todayKey now) =
        some (encodeArticle art) ∧
      art.title = titleSpec (sanitizeGeneratedHtml raw) (toISODate now) := by
  rcases gen_cases hA hAI raw now s with heq | ⟨htr, heq⟩
  · rw [heq] at hw
    simp at hw
  · refine ⟨buildArticle raw now, ?_, rfl⟩
    rw [heq]
    have hkn : todayKey now ≠ "latest-key" := todayKey_ne_latest (toISODate now)
    rw [kvGet_put_other _ _ _ _ hkn]
    exact kvGet_put_self _ _ _

/-- Witness for the amended C6: a concrete write run stores the derived
title. -/
theorem title_derivation_amended_witness :
    ∃ art : StoredArticle,
      kvGet (generateDailyArticle true true "<h2>W</h2>" 0 []).1 (todayKey 0) =
        some (encodeArticle art) ∧
      art.title = titleSpec (sanitizeGeneratedHtml "<h2>W</h2>") (toISODate 0) :=
  title_derivation_amended true true "<h2>W</h2>" 0 [] (by rfl)

theorem matchCI_suffix : ∀ {t l r : List Char}, matchCI t l = some r → r.IsSuffix l := by
  intro t
  induction t with
  | nil =>
    intro l r h
    simp [matchCI] at h
    subst h
    exact List.suffix_refl l
  | cons c cs ih =>
    intro l r h
    match l with
    | [] => simp [matchCI] at h
    | d :: ds =>
      simp only [matchCI] at h
      by_cases hc : ciEq c d = true
      · rw [if_pos hc] at h
        exact (ih h).trans (List.suffix_cons d ds)
      · rw [if_neg hc] at h
        exact absurd h (by simp)

theorem scanToGt_suffix : ∀ {l r : List Char}, scanToGt l = some r → r.IsSuffix l := by
  intro l
  induction l with
  | nil => intro r h; simp [scanToGt] at h
  | cons c cs ih =>
    intro r h
    simp only [scanToGt] at h
    by_cases hc : c = '>'
    · rw [if_pos hc] at h
      cases h
      exact List.suffix_cons c cs
    · rw [if_neg hc] at h
      exact (ih h).trans (List.suffix_cons c cs)

theorem matchHeadingAt_suffix : ∀ {l t r : List Char},
    matchHeadingAt l t = some r → r.IsSuffix l := by
  intro l t r h
  match l with
  | [] => simp [matchHeadingAt] at h
  | [c0] => simp [matchHeadingAt] at h
  | [c0, c1] => simp [matchHeadingAt] at h
  | c0 :: c1 :: c2 :: rest =>
    simp only [matchHeadingAt] at h
    split at h
    · split at h
      · exact absurd h (by simp)
      · next r1 hscan =>
        split at h
        · exact absurd h (by simp)
        · next r3 hci =>
          split at h
          · next r5 hdrop =>
            split at h
            · cases h
              have h5 : r.IsSuffix (r3.dropWhile isJsWs) := by
                rw [hdrop]
                exact (List.suffix_cons _ _).trans ((List.suffix_cons _ _).trans
                  ((List.suffix_cons _ _).trans ((List.suffix_cons _ _).trans
                    (List.suffix_cons _ _))))
              have h4 : (r3.dropWhile isJsWs).IsSuffix r3 := List.dropWhile_suffix _
              have h3 : r3.IsSuffix (r1.dropWhile isJsWs) := matchCI_suffix hci
              have h2 : (r1.dropWhile isJsWs).IsSuffix r1 := List.dropWhile_suffix _
              have h1 : r1.IsSuffix rest := scanToGt_suffix hscan
              have : r.IsSuffix rest :=
                ((((h5.trans h4).trans h3).trans h2).trans h1)
              exact this.trans ((List.suffix_cons c2 rest).trans
                ((List.suffix_cons c1 (c2 :: rest)).trans
                  (List.suffix_cons c0 (c1 :: c2 :: rest))))
            · exact absurd h (by simp)
          · exact absurd h (by simp)
    · exact absurd h (by simp)

theorem suffix_eq_drop {l1 l2 : List Char} (h : l1.IsSuffix l2) :
    ∃ k, k ≤ l2.length ∧ l1 = l2.drop k := by
  obtain ⟨t, ht⟩ := h
  refine ⟨t.length, ?_, ?_⟩
  · rw [← ht]
    simp
  · rw [← ht, List.drop_left]

theorem replaceFirstHeading_span (t : List Char) : ∀ (l : List Char),
    ∃ i j, i ≤ j ∧ j ≤ l.length ∧
      replaceFirstHeading l t = l.take i ++ l.drop j := by
  intro l
  induction l with
  | nil => exact ⟨0, 0, le_refl _, by simp, by simp [replaceFirstHeading, matchHeadingAt]⟩
  | cons c cs ih =>
    cases hm : matchHeadingAt (c :: cs) t with
    | some r =>
      obtain ⟨k, hk, hr⟩ := suffix_eq_drop (matchHeadingAt_suffix hm)
      refine ⟨0, k, Nat.zero_le _, hk, ?_⟩
      rw [show replaceFirstHeading (c :: cs) t = r from by rw [replaceFirstHeading, hm]]
      simp [hr]
    | none =>
      obtain ⟨i, j, hij, hjl, heq⟩ := ih
      refine ⟨i + 1, j + 1, by omega, by simp; omega, ?_⟩
      rw [show replaceFirstHeading (c :: cs) t = c :: replaceFirstHeading cs t from by
        rw [replaceFirstHeading, hm]]
      rw [heq]
      simp

theorem lastNlSplit_suffix : ∀ {l r : List Char}, lastNlSplit l = some r → r.IsSuffix l := by
  intro l
  induction l with
  | nil => intro r h; simp [lastNlSplit] at h
  | cons c cs ih =>
    intro r h
    simp only [lastNlSplit] at h
    by_cases hc : c = '\n'
    · rw [if_pos hc] at h
      cases h
      cases hin : lastNlSplit cs with
      | some r2 =>
        simp only [hin, Option.getD_some]
        exact (ih hin).trans (List.suffix_cons c cs)
      | none =>
        simp only [hin, Option.getD_none]
        exact List.suffix_cons c cs
    · rw [if_neg hc] at h
      exact (ih h).trans (List.suffix_cons c cs)

theorem replacePlainLeading_suffix (l t : List Char) :
    (replacePlainLeading l t).IsSuffix l := by
  unfold replacePlainLeading
  split
  · split
    · next after hnl =>
      split
      · exact List.nil_suffix
      · obtain ⟨u, hu⟩ := lastNlSplit_suffix hnl
        refine ⟨u, ?_⟩
        rw [← List.append_assoc, hu, List.takeWhile_append_dropWhile]
    · split
      · exact List.nil_suffix
      · exact List.suffix_refl l
  · split
    · exact List.suffix_refl l
    · next l2 hmc =>
      have hl2 : l2.IsSuffix l := (matchCI_suffix hmc).trans (List.dropWhile_suffix _)
      split
      · exact List.nil_suffix
      · split
        · next after hnl =>
          obtain ⟨u, hu⟩ := lastNlSplit_suffix hnl
          have h2 : (after ++ l2.dropWhile isJsWs).IsSuffix l2 :=
            ⟨u, by rw [← List.append_assoc, hu, List.takeWhile_append_dropWhile]⟩
          exact h2.trans hl2
        · exact List.suffix_refl l

theorem replaceFirstHeading_id (t : List Char) : ∀ (l : List Char),
    (∀ suf ∈ l.tails, matchHeadingAt suf t = none) → replaceFirstHeading l t = l := by
  intro l
  induction l with
  | nil => intro _; rfl
  | cons c cs ih =>
    intro h
    have hself : matchHeadingAt (c :: cs) t = none :=
      h (c :: cs) (by simp [List.mem_tails])
    rw [replaceFirstHeading, hself]
    rw [ih]
    intro suf hsuf
    exact h suf (by
      rw [List.mem_tails] at hsuf ⊢
      exact hsuf.trans (List.suffix_cons c cs))

theorem matchCI_self_append (t r : List Char) : matchCI t (t ++ r) = some r := by
  induction t with
  | nil => rfl
  | cons c cs ih =>
    show matchCI (c :: cs) (c :: (cs ++ r)) = some r
    simp only [matchCI]
    rw [if_pos (by simp [ciEq])]
    exact ih

theorem jsTrim_head_not_ws {l : List Char} (htrim : jsTrim l = l) (hne : l ≠ []) :
    ∃ c cs, l = c :: cs ∧ isJsWs c = false := by
  match l, hne with
  | c :: cs, _ =>
    refine ⟨c, cs, rfl, ?_⟩
    by_contra hws
    have hws2 : isJsWs c = true := by simp_all
    have hlen : (jsTrim (c :: cs)).length ≤ cs.length := by
      unfold jsTrim
      have h1 : (c :: cs).dropWhile isJsWs = cs.dropWhile isJsWs := by
        rw [List.dropWhile_cons, if_pos hws2]
      rw [h1]
      have h2 : ((cs.dropWhile isJsWs).reverse.dropWhile isJsWs).length ≤
          (cs.dropWhile isJsWs).reverse.length :=
        List.Sublist.length_le (List.dropWhile_sublist _)
      have h3 : (cs.dropWhile isJsWs).length ≤ cs.length :=
        List.Sublist.length_le (List.dropWhile_sublist _)
      simp at h2 ⊢
      omega
    rw [htrim] at hlen
    simp at hlen

/-- Counterexample to C5 as stated: the body `"x\n<h2>T</h2>y"` contains
no leading duplicate of the title `"T"` (no heading match at the start,
no leading plain line), yet `removeTitleFromBody` changes it: the heading
pattern is unanchored, so the mid-body heading is deleted. -/
theorem removeTitleFromBody_counterexample :
    matchHeadingAt ("x\n<h2>T</h2>y" : String).data (jsTrim ("T" : String).data) = none ∧
    matchCI (jsTrim ("T" : String).data)
      (("x\n<h2>T</h2>y" : String).data.dropWhile isJsWs) = none ∧
    removeTitleFromBody "x\n<h2>T</h2>y" "T" = "x\ny" ∧
    ("x\ny" : String) ≠ "x\n<h2>T</h2>y" := by
  refine ⟨by decide, by decide, by decide, by decide⟩

/-- C5 (amended): `removeTitleFromBody` deletes at most one contiguous
span (the leftmost matching heading element anywhere in the body, not
only a leading one) and then a prefix span (the leading plain-line
duplicate), leaving the rest byte-identical; when no heading matches
anywhere and no leading plain duplicate is present the body is returned
unchanged; and an exact leading plain-text duplicate of a trimmed title
followed by a newline is stripped, leaving exactly the rest. -/
theorem removeTitleFromBody_amended (body title : String) :
    (∃ i j k : Nat, i ≤ j ∧ j ≤ body.data.length ∧
      removeTitleFromBody body title =
        strOf ((body.data.take i ++ body.data.drop j).drop k)) ∧
    (title ≠ "" →
      (∀ suf ∈ body.data.tails, matchHeadingAt suf (jsTrim title.data) = none) →
      matchCI (jsTrim title.data) (body.data.dropWhile isJsWs) = none →
      removeTitleFromBody body title = body) ∧
    (∀ rest : List Char, title.data ≠ [] → jsTrim title.data = title.data →
      (∀ suf ∈ (title.data ++ '\n' :: rest).tails,
        matchHeadingAt suf title.data = none) →
      (rest = [] ∨ ∃ c cs, rest = c :: cs ∧ isJsWs c = false) →
      removeTitleFromBody (strOf (title.data ++ '\n' :: rest)) title = strOf rest) := by
  refine ⟨?_, ?_, ?_⟩
  · by_cases ht : title = ""
    · refine ⟨0, 0, 0, le_refl _, Nat.zero_le _, ?_⟩
      unfold removeTitleFromBody
      rw [if_pos ht]
      rfl
    · obtain ⟨i, j, hij, hj, hspan⟩ :=
        replaceFirstHeading_span (jsTrim title.data) body.data
      obtain ⟨k, hk, hkeq⟩ := suffix_eq_drop
        (replacePlainLeading_suffix
          (replaceFirstHeading body.data (jsTrim title.data)) (jsTrim title.data))
      refine ⟨i, j, k, hij, hj, ?_⟩
      unfold removeTitleFromBody
      rw [if_neg ht]
      show strOf (replacePlainLeading
        (replaceFirstHeading body.data (jsTrim title.data)) (jsTrim title.data)) =
        strOf (List.drop k (List.take i body.data ++ List.drop j body.data))
      rw [hkeq, hspan]
  · intro ht hhead hplain
    have htne : jsTrim title.data ≠ [] := by
      intro he
      rw [he] at hplain
      simp [matchCI] at hplain
    unfold removeTitleFromBody
    rw [if_neg ht]
    show strOf (replacePlainLeading
      (replaceFirstHeading body.data (jsTrim title.data)) (jsTrim title.data)) = body
    rw [replaceFirstHeading_id _ _ hhead]
    unfold replacePlainLeading
    rw [if_neg (by simp [htne])]
    rw [hplain]
    rfl
  · intro rest hne htrim hhead hrest
    have htitle_ne : title ≠ "" := by
      intro he
      rw [he] at hne
      exact hne rfl
    obtain ⟨c, cs, hl, hcws⟩ := jsTrim_head_not_ws htrim hne
    unfold removeTitleFromBody
    rw [if_neg htitle_ne]
    show strOf (replacePlainLeading
      (replaceFirstHeading (strOf (title.data ++ '\n' :: rest)).data (jsTrim title.data))
      (jsTrim title.data)) = strOf rest
    rw [show (strOf (title.data ++ '\n' :: rest)).data = title.data ++ '\n' :: rest from rfl]
    rw [htrim]
    rw [replaceFirstHeading_id _ _ hhead]
    unfold replacePlainLeading
    rw [if_neg (by simp [hne])]
    have hdw : (title.data ++ '\n' :: rest).dropWhile isJsWs =
        title.data ++ '\n' :: rest := by
      rw [hl]
      rw [show (c :: cs) ++ '\n' :: rest = c :: (cs ++ '\n' :: rest) from rfl]
      rw [List.dropWhile_cons, if_neg (by simp [hcws])]
    rw [hdw, matchCI_self_append]
    rcases hrest with hrnil | ⟨c2, cs2, hr, hc2⟩
    · subst hrnil
      rfl
    · subst hr
      have hdw2 : ('\n' :: c2 :: cs2).dropWhile isJsWs = c2 :: cs2 := by
        rw [List.dropWhile_cons, if_pos (by decide), List.dropWhile_cons,
          if_neg (by simp [hc2])]
      have htw : ('\n' :: c2 :: cs2).takeWhile isJsWs = ['\n'] := by
        rw [List.takeWhile_cons, if_pos (by decide), List.takeWhile_cons,
          if_neg (by simp [hc2])]
      show strOf (if (List.dropWhile isJsWs ('\n' :: c2 :: cs2)).isEmpty = true then []
          else match lastNlSplit (List.takeWhile isJsWs ('\n' :: c2 :: cs2)) with
            | some after => after ++ List.dropWhile isJsWs ('\n' :: c2 :: cs2)
            | none => title.data ++ '\n' :: c2 :: cs2) = strOf (c2 :: cs2)
      rw [hdw2, htw]
      rfl

/-- Witness for the amended C5: an untouched body without duplicates, and
a leading plain-line duplicate being stripped. -/
theorem removeTitleFromBody_amended_witness :
    removeTitleFromBody "hello world" "T" = "hello world" ∧
    removeTitleFromBody (strOf (("T" : String).data ++ '\n' :: ('r' :: 'e' :: 's' :: 't' :: []))) "T" =
      strOf ('r' :: 'e' :: 's' :: 't' :: []) :=
  ⟨(removeTitleFromBody_amended "hello world" "T").2.1 (by decide) (by decide) (by decide),
   (removeTitleFromBody_amended "" "T").2.2 ('r' :: 'e' :: 's' :: 't' :: []) (by decide) (by decide)
     (by decide) (Or.inr ⟨'r', ('e' :: 's' :: 't' :: []), by decide, by decide⟩)⟩

end HH
